import Mathlib

/-!
Verification development for moon-dst (src/main.rs), a CLI that scans a
directory tree for moon.mod.json manifests, groups them by repository, and
drives the external moon toolchain (moon update / moon add) per repository,
optionally installing a justfile. The definitions below are a shallow
embedding of the relevant functions of src/main.rs; external effects
(subprocess outcomes, manifest parsing, filesystem contents) are supplied as
explicit oracles.
-/

/-- Leading-dot test on a path component, mirroring the character test
name_str.starts_with('.') in should_ignore of src/main.rs. -/
def startsWithDot (s : String) : Bool :=
  match s.data with
  | [] => false
  | c :: _ => c == '.'

/-- Embeds should_ignore (src/main.rs): true iff some normal component of the
path starts with a dot, or equals one of the ignore names. Paths are modelled
as their lists of normal components. -/
def should_ignore (path : List String) (ignores : List String) : Bool :=
  path.any fun nm => startsWithDot nm || ignores.any fun ig => nm == ig

mutual
/-- Directory-tree model of the filesystem region walked by WalkDir. -/
inductive FsEntry : Type where
  | file (nm : String)
  | dir (nm : String) (children : FsForest)

/-- Sibling list of filesystem entries. -/
inductive FsForest : Type where
  | nil
  | cons (e : FsEntry) (es : FsForest)
end

mutual
/-- Walk of one entry below dirPath; yields (full path, is-file) pairs in
pre-order and prunes a whole subtree whenever should_ignore holds on the
entry path, mirroring the filter_entry call in find_moon_mods. -/
def walk_entry (ignores dirPath : List String) : FsEntry → List (List String × Bool)
  | FsEntry.file nm =>
      if should_ignore (dirPath ++ [nm]) ignores then []
      else [(dirPath ++ [nm], true)]
  | FsEntry.dir nm cs =>
      if should_ignore (dirPath ++ [nm]) ignores then []
      else (dirPath ++ [nm], false) :: walk_forest ignores (dirPath ++ [nm]) cs

/-- Walk of a sibling list of entries, in order. -/
def walk_forest (ignores dirPath : List String) : FsForest → List (List String × Bool)
  | FsForest.nil => []
  | FsForest.cons e es => walk_entry ignores dirPath e ++ walk_forest ignores dirPath es
end

/-- The walk as WalkDir::new(root) performs it: the root entry itself carries
the full root path and is subject to the same filter_entry predicate as every
other entry, so an ignored root prunes the entire walk. -/
def walk_from (ignores rootPath : List String) : FsEntry → List (List String × Bool)
  | FsEntry.file _ =>
      if should_ignore rootPath ignores then [] else [(rootPath, true)]
  | FsEntry.dir _ cs =>
      if should_ignore rootPath ignores then []
      else (rootPath, false) :: walk_forest ignores rootPath cs

/-- Embeds find_moon_mods (src/main.rs): walk from the root, keep file entries
whose leaf name is exactly moon.mod.json, and keep those the manifest parser
accepts. parse is the oracle for parse_moon_mod (file read plus JSON decode):
some gives the sorted dependency names, none a read or parse failure, which
the code reports as a warning and skips. -/
def find_moon_mods (parse : List String → Option (List String))
    (ignores rootPath : List String) (root : FsEntry) :
    List (List String × List String) :=
  (walk_from ignores rootPath root).filterMap fun pb =>
    if pb.2 && (pb.1.getLast? == some "moon.mod.json") then
      match parse pb.1 with
      | some deps => some (pb.1, deps)
      | none => none
    else none

/-- The DEFAULT_IGNORES constant of src/main.rs. -/
def DEFAULT_IGNORES : List String :=
  ["target", "node_modules", "dist", "build", "vendor", "skills"]

/-- Ignore-list construction in discover_repos: the caller-supplied names,
extended with the default names unless no_default_ignore is set. -/
def build_ignores (userIgnores : List String) (noDefaultIgnore : Bool) : List String :=
  if noDefaultIgnore then userIgnores else userIgnores ++ DEFAULT_IGNORES

mutual
/-- The walk with the per-entry error path of WalkDir: iterating a directory
may surface an error item in place of an entry when reading that directory
fails. readErr gives, for each non-pruned directory path whose children the
walker reads, the message of such a failure, or none when the read succeeds;
a pruned directory is never read, so readErr is not consulted for it. The
source aborts discovery on the first error item, so the error swallows the
whole result. -/
def walk_entry_result (readErr : List String → Option String)
    (ignores dirPath : List String) : FsEntry → Except String (List (List String × Bool))
  | FsEntry.file nm =>
      if should_ignore (dirPath ++ [nm]) ignores then Except.ok []
      else Except.ok [(dirPath ++ [nm], true)]
  | FsEntry.dir nm cs =>
      if should_ignore (dirPath ++ [nm]) ignores then Except.ok []
      else
        match readErr (dirPath ++ [nm]) with
        | some e => Except.error e
        | none =>
            match walk_forest_result readErr ignores (dirPath ++ [nm]) cs with
            | Except.ok l => Except.ok ((dirPath ++ [nm], false) :: l)
            | Except.error e => Except.error e

/-- Error-aware walk of a sibling list, aborting on the first error. -/
def walk_forest_result (readErr : List String → Option String)
    (ignores dirPath : List String) : FsForest → Except String (List (List String × Bool))
  | FsForest.nil => Except.ok []
  | FsForest.cons e es =>
      match walk_entry_result readErr ignores dirPath e with
      | Except.error e2 => Except.error e2
      | Except.ok l1 =>
          match walk_forest_result readErr ignores dirPath es with
          | Except.error e2 => Except.error e2
          | Except.ok l2 => Except.ok (l1 ++ l2)
end

/-- Error-aware walk from the root entry: a file root involves no directory
read of its own, and an ignored root is pruned before any read. -/
def walk_from_result (readErr : List String → Option String)
    (ignores rootPath : List String) : FsEntry → Except String (List (List String × Bool))
  | FsEntry.file _ =>
      if should_ignore rootPath ignores then Except.ok []
      else Except.ok [(rootPath, true)]
  | FsEntry.dir _ cs =>
      if should_ignore rootPath ignores then Except.ok []
      else
        match readErr rootPath with
        | some e => Except.error e
        | none =>
            match walk_forest_result readErr ignores rootPath cs with
            | Except.ok l => Except.ok ((rootPath, false) :: l)
            | Except.error e => Except.error e

/-- find_moon_mods with the fatal per-entry error path of the source kept:
on a walk error item the function returns Err and discovery aborts, instead
of a manifest list. -/
def find_moon_mods_result (readErr : List String → Option String)
    (parse : List String → Option (List String))
    (ignores rootPath : List String) (root : FsEntry) :
    Except String (List (List String × List String)) :=
  match walk_from_result readErr ignores rootPath root with
  | Except.error e => Except.error e
  | Except.ok entries =>
      Except.ok (entries.filterMap fun pb =>
        if pb.2 && (pb.1.getLast? == some "moon.mod.json") then
          match parse pb.1 with
          | some deps => some (pb.1, deps)
          | none => none
        else none)

/-- Embeds the canonicalize-then-walk part of discover_repos. resolvedRoot
models common.root.canonicalize(): none when canonicalization fails (the path
does not exist), otherwise the canonical path paired with the filesystem
entry found there, which may be a regular file or a directory, since
canonicalization succeeds for any existing path. After a successful
canonicalization the walk itself can still fail fatally on an entry error,
which readErr models and find_moon_mods_result propagates. Grouping of the
manifests into repositories happens downstream of this and is not needed by
any claim. -/
def discover_manifests (resolvedRoot : Option (List String × FsEntry))
    (readErr : List String → Option String)
    (parse : List String → Option (List String))
    (userIgnores : List String) (noDefaultIgnore : Bool) :
    Except String (List (List String × List String)) :=
  match resolvedRoot with
  | none => Except.error "Invalid root path"
  | some (rootPath, root) =>
      find_moon_mods_result readErr parse (build_ignores userIgnores noDefaultIgnore)
        rootPath root

/-- The exit-code mapping of main: Ok(true) gives 0, Ok(false) and Err(_)
give 1. -/
def main_exit (r : Except String Bool) : Nat :=
  match r with
  | Except.ok true => 0
  | Except.ok false => 1
  | Except.error _ => 1

/-- Outcome oracle for the external moon binary and the justfile step for one
repository. updateResult is the result of run_moon_command(["update"]);
addResult round dep is the result of run_moon_command(["add", dep]) in the
given 0-based repetition round (within one round each deduplicated dependency
is invoked once, so the pair identifies the invocation); justResult is the
result handle_justfile returns for this repository. Error values carry the
formatted message string of the Rust error. -/
structure MoonEnv where
  updateResult : Except String String
  addResult : Nat → String → Except String String
  justResult : Except String Bool

/-- One discovered repository: its root and the dependency lists of its
moon.mod.json manifests. -/
structure RepoInfo where
  root : String
  mods : List (List String)
  deriving DecidableEq

/-- The RepoResult record of src/main.rs. -/
structure RepoResult where
  repo_root : String
  success : Bool
  updated_packages : List String
  failed_packages : List (String × String)
  errors : List String
  deriving DecidableEq

/-- External invocations a worker performs, in execution order. -/
inductive MoonCall : Type where
  | update
  | add (round : Nat) (dep : String)
  | justfile
  deriving DecidableEq

/-- The RepoResult initializer at the top of process_repo. -/
def initResult (root : String) : RepoResult :=
  { repo_root := root, success := true, updated_packages := [],
    failed_packages := [], errors := [] }

/-- Substring test over character lists, modelling Rust str::contains as used
by the package filter dep.contains(p). -/
def contains_sub (hay pat : List Char) : Bool :=
  match hay with
  | [] => pat.isEmpty
  | c :: t => pat.isPrefixOf (c :: t) || contains_sub t pat

/-- First-occurrence deduplication, written with a seen accumulator. The
source collects the filtered names into a HashSet whose traversal order is
unspecified; the embedding fixes first-occurrence order, and no proved claim
depends on the order. -/
def dedup_seen (seen : List String) : List String → List String
  | [] => []
  | d :: ds =>
      if seen.contains d then dedup_seen seen ds
      else d :: dedup_seen (d :: seen) ds

/-- Deduplication of the aggregated dependency list. -/
def dedup_first (l : List String) : List String := dedup_seen [] l

/-- Dependency aggregation of process_repo step 2: flatten every manifest's
dependency list, apply the substring package filter (kept when the filter
list is empty or some filter string occurs in the name), deduplicate. -/
def filtered_deps (mods : List (List String)) (filterPackages : List String) :
    List String :=
  dedup_first ((mods.flatMap fun m => m).filter fun dep =>
    filterPackages.isEmpty || filterPackages.any fun p => contains_sub dep.data p.data)

/-- One moon add invocation of the add-loop body in process_repo: on success
the dependency is appended to updated_packages unless already present; on
failure the (dep, message) pair is appended to failed_packages and success is
cleared. -/
def add_one (env : MoonEnv) (round : Nat) (dep : String) (r : RepoResult) : RepoResult :=
  match env.addResult round dep with
  | Except.ok _ =>
      if r.updated_packages.contains dep then r
      else { r with updated_packages := r.updated_packages ++ [dep] }
  | Except.error e =>
      { r with failed_packages := r.failed_packages ++ [(dep, e)], success := false }

/-- One repetition round of the add loop: iterate the deduplicated dependency
list in order, recording every invocation in the trace. -/
def add_round (env : MoonEnv) (round : Nat) :
    List String → RepoResult × List MoonCall → RepoResult × List MoonCall
  | [], rt => rt
  | d :: ds, rt =>
      add_round env round ds (add_one env round d rt.1, rt.2 ++ [MoonCall.add round d])

/-- Rounds i, i+1, ..., i+n-1 of the add loop. -/
def add_rounds_from (env : MoonEnv) (deps : List String) :
    Nat → Nat → RepoResult × List MoonCall → RepoResult × List MoonCall
  | _, 0, rt => rt
  | i, n + 1, rt => add_rounds_from env deps (i + 1) n (add_round env i deps rt)

/-- The add loop of process_repo step 3: repeat rounds over deps, counting the
rounds from 0. -/
def add_loop (env : MoonEnv) (deps : List String) (reps : Nat)
    (rt : RepoResult × List MoonCall) : RepoResult × List MoonCall :=
  add_rounds_from env deps 0 reps rt

/-- Step 4 of process_repo: when write_justfile is set, handle_justfile runs;
a failure is appended to the repo-level errors and the success flag is left
untouched. -/
def just_step (env : MoonEnv) (writeJustfile : Bool)
    (rt : RepoResult × List MoonCall) : RepoResult × List MoonCall :=
  if writeJustfile then
    match env.justResult with
    | Except.ok _ => (rt.1, rt.2 ++ [MoonCall.justfile])
    | Except.error e =>
        ({ rt.1 with errors := rt.1.errors ++ ["justfile handling failed: " ++ e] },
         rt.2 ++ [MoonCall.justfile])
  else rt

/-- Steps 2-4 of process_repo, shared by both outcomes of the update step. In
dry-run mode the add loop only logs, so the state and the trace are left
unchanged by it. -/
def after_update (env : MoonEnv) (repo : RepoInfo) (reps : Nat)
    (filterPackages : List String) (dryRun writeJustfile : Bool)
    (rt0 : RepoResult × List MoonCall) : RepoResult × List MoonCall :=
  let deps := filtered_deps repo.mods filterPackages
  let rt1 := if dryRun then rt0 else add_loop env deps reps rt0
  just_step env writeJustfile rt1

/-- Embeds process_repo (src/main.rs), additionally returning the ordered
trace of external invocations the worker performed. The update subprocess
runs only when skip_update and dry_run are both false; on its failure the
function returns early with the error recorded and success cleared. -/
def process_repo (env : MoonEnv) (repo : RepoInfo) (skipUpdate : Bool) (reps : Nat)
    (filterPackages : List String) (dryRun writeJustfile : Bool) :
    RepoResult × List MoonCall :=
  if !skipUpdate && !dryRun then
    match env.updateResult with
    | Except.ok _ =>
        after_update env repo reps filterPackages dryRun writeJustfile
          (initResult repo.root, [MoonCall.update])
    | Except.error e =>
        ({ initResult repo.root with
            errors := ["moon update failed: " ++ e], success := false },
         [MoonCall.update])
  else
    after_update env repo reps filterPackages dryRun writeJustfile
      (initResult repo.root, [])

/-- The default of the repeat option: default_value "1" on Commands::Apply. -/
def repeat_default : Nat := 1

/-- Number of moon add invocations recorded in a trace. -/
def add_calls (t : List MoonCall) : Nat :=
  t.countP fun c => match c with | MoonCall.add _ _ => true | _ => false

/-- The (dep, message) failures of one round, in dependency order. -/
def failures_of (env : MoonEnv) (round : Nat) (deps : List String) :
    List (String × String) :=
  deps.filterMap fun d =>
    match env.addResult round d with
    | Except.error e => some (d, e)
    | Except.ok _ => none

/-- Bool success test for an Except value. -/
def except_ok {ε α : Type} : Except ε α → Bool
  | Except.ok _ => true
  | Except.error _ => false

/-- The JustfileMode enum of src/main.rs. -/
inductive JustfileMode : Type where
  | skip
  | create
  | merge
  deriving DecidableEq

/-- The JUSTFILE_TEMPLATE constant of src/main.rs, verbatim. -/
def JUSTFILE_TEMPLATE : String :=
  "# https://github.com/mizchi/moonbit-template\n# SPDX-License-Identifier: MIT\n# MoonBit Project Commands\n\ntarget := \"js\"\n\ndefault: check test\n\nfmt:\n    moon fmt\n\ncheck:\n    moon check --deny-warn --target \x7b\x7btarget\x7d\x7d\n\ntest:\n    moon test --target \x7b\x7btarget\x7d\x7d\n\ntest-update:\n    moon test --update --target \x7b\x7btarget\x7d\x7d\n\nrun:\n    moon run src/main --target \x7b\x7btarget\x7d\x7d\n\ninfo:\n    moon info\n\nclean:\n    moon clean\n\nrelease-check: fmt info check test\n"

/-- Embeds handle_justfile (src/main.rs). The filesystem is an association
list from paths (component lists) to file contents; writeOk tells whether
the std::fs::write call would succeed. Skip and Merge modes never write and
return false; Create returns false when repo_root/justfile already exists,
and otherwise writes the template and returns true, or in dry-run mode
returns true without writing. -/
def handle_justfile (fs : List (List String × String)) (repoRoot : List String)
    (mode : JustfileMode) (dryRun writeOk : Bool) :
    Except String (Bool × List (List String × String)) :=
  let justfilePath := repoRoot ++ ["justfile"]
  let ex := (fs.lookup justfilePath).isSome
  match mode with
  | JustfileMode.skip => Except.ok (false, fs)
  | JustfileMode.create =>
      if ex then Except.ok (false, fs)
      else if dryRun then Except.ok (true, fs)
      else if writeOk then Except.ok (true, (justfilePath, JUSTFILE_TEMPLATE) :: fs)
      else Except.error "Failed to write justfile"
  | JustfileMode.merge => Except.ok (false, fs)

/-- The process-wide inputs of cmd_apply after discovery: the discovered
repositories, a per-repository outcome oracle for external invocations, and
the option flags. -/
structure ApplyConfig where
  repos : List RepoInfo
  env : RepoInfo → MoonEnv
  skipUpdate : Bool
  reps : Nat
  filterPackages : List String
  dryRun : Bool
  writeJustfile : Bool
  failFast : Bool

/-- The full per-repository plan one worker runs: the body of the par_iter
closure in cmd_apply, minus the shared-state manipulation. -/
def run_worker (cfg : ApplyConfig) (repo : RepoInfo) : RepoResult × List MoonCall :=
  process_repo (cfg.env repo) repo cfg.skipUpdate cfg.reps cfg.filterPackages
    cfg.dryRun cfg.writeJustfile

/-- Shared state of the cmd_apply orchestration: repositories not yet taken
by a worker, the mutex-protected results vector, and the atomic stop flag. -/
structure OrchState where
  pending : List RepoInfo
  results : List RepoResult
  stop : Bool

/-- One scheduling step of the rayon par_iter loop in cmd_apply. A pending
repository is either dropped without a result, which the code does only when
fail_fast is set and the stop flag reads true at worker start, or processed
to completion in one step: the worker runs the whole plan, pushes its result,
and then sets the stop flag when fail_fast is set and the result failed.
The stop flag is only ever stored true, so a worker whose relaxed load saw
false may run even after another worker set the flag; the work step is
therefore available regardless of the current flag value. -/
inductive OrchStep (cfg : ApplyConfig) : OrchState → OrchState → Prop where
  | skip (pre post : List RepoInfo) (repo : RepoInfo) (results : List RepoResult) :
      cfg.failFast = true →
      OrchStep cfg ⟨pre ++ repo :: post, results, true⟩ ⟨pre ++ post, results, true⟩
  | work (pre post : List RepoInfo) (repo : RepoInfo) (results : List RepoResult)
      (stop : Bool) :
      OrchStep cfg ⟨pre ++ repo :: post, results, stop⟩
        ⟨pre ++ post, results ++ [(run_worker cfg repo).1],
         stop || (cfg.failFast && !(run_worker cfg repo).1.success)⟩

/-- The state of cmd_apply right after discovery, before any worker starts. -/
def init_state (cfg : ApplyConfig) : OrchState := ⟨cfg.repos, [], false⟩

/-- The all_success accumulation over the printed results in cmd_apply. -/
def all_success (results : List RepoResult) : Bool :=
  results.foldl (fun acc r => acc && r.success) true

/-- Exit code the apply subcommand reports: run returns Ok(all_success) and
main maps Ok(true) to 0 and everything else to 1. -/
def apply_exit (results : List RepoResult) : Nat :=
  if all_success results then 0 else 1

/-- Invariant of the cmd_apply orchestration: every collected result is the
output of a full worker run on a discovered repository; the stop flag is set
only after a failing result was pushed; a result can be missing only when a
failing result was collected; pending repositories come from the discovered
list. -/
def orch_inv (cfg : ApplyConfig) (s : OrchState) : Prop :=
  (∀ r ∈ s.results, ∃ repo, repo ∈ cfg.repos ∧ r = (run_worker cfg repo).1) ∧
  (s.stop = true → ∃ r ∈ s.results, r.success = false) ∧
  (s.results.length + s.pending.length = cfg.repos.length ∨
    ∃ r ∈ s.results, r.success = false) ∧
  (∀ repo ∈ s.pending, repo ∈ cfg.repos)

/-- Oracle used by concrete scan scenarios: every manifest parses with an
empty dependency list. -/
def parseW : List String → Option (List String) := fun _ => some []

/-- Concrete tree for the dot-folder scenario: root x containing a hidden
directory .hidden with a manifest inside. -/
def treeC5 : FsEntry :=
  FsEntry.dir "x"
    (FsForest.cons
      (FsEntry.dir ".hidden" (FsForest.cons (FsEntry.file "moon.mod.json") FsForest.nil))
      FsForest.nil)

/-- Concrete tree for the ignored-root scenario: a project directory holding
a valid manifest. -/
def treeC10 : FsEntry :=
  FsEntry.dir "proj" (FsForest.cons (FsEntry.file "moon.mod.json") FsForest.nil)

/-- Concrete environment in which moon update fails. -/
def envC1 : MoonEnv :=
  { updateResult := Except.error "boom", addResult := fun _ _ => Except.ok "",
    justResult := Except.ok true }

/-- Concrete repository with one manifest and one dependency. -/
def repoC1 : RepoInfo := { root := "r", mods := [["a/b"]] }

/-- Concrete environment in which only moon add b fails. -/
def envC2 : MoonEnv :=
  { updateResult := Except.ok "", addResult := fun _ d => if d == "b" then Except.error "E" else Except.ok "",
    justResult := Except.ok true }

/-- Concrete environment in which every external invocation succeeds. -/
def envOk : MoonEnv :=
  { updateResult := Except.ok "", addResult := fun _ _ => Except.ok "",
    justResult := Except.ok true }

/-- Concrete environment in which the justfile step fails. -/
def envC8 : MoonEnv :=
  { updateResult := Except.ok "", addResult := fun _ _ => Except.ok "",
    justResult := Except.error "disk full" }

/-- Concrete repository used in the orchestrator scenario. -/
def repoW : RepoInfo := { root := "w", mods := [["a/b"]] }

/-- Concrete apply configuration: one repository, all invocations succeed,
fail-fast enabled. -/
def cfgW : ApplyConfig :=
  { repos := [repoW], env := fun _ => envOk, skipUpdate := false, reps := 1,
    filterPackages := [], dryRun := false, writeJustfile := true, failFast := true }

/-- The orchestrator state reached from init_state cfgW by one work step. -/
def finalW : OrchState :=
  ⟨[], [(run_worker cfgW repoW).1],
   false || (cfgW.failFast && !(run_worker cfgW repoW).1.success)⟩

theorem should_ignore_of_dot (p ignores : List String) (c : String) (hc : c ∈ p)
    (hdot : startsWithDot c = true) : should_ignore p ignores = true := by
  unfold should_ignore
  rw [List.any_eq_true]
  exact ⟨c, hc, by rw [hdot]; rfl⟩

theorem should_ignore_of_member (p ignores : List String) (c : String) (hc : c ∈ p)
    (hm : c ∈ ignores) : should_ignore p ignores = true := by
  unfold should_ignore
  rw [List.any_eq_true]
  refine ⟨c, hc, ?_⟩
  have h2 : (ignores.any fun ig => c == ig) = true := by
    rw [List.any_eq_true]
    exact ⟨c, hm, by simp⟩
  rw [h2, Bool.or_true]

mutual
theorem walk_entry_not_ignored : ∀ (ignores dirPath : List String) (e : FsEntry)
    (p : List String) (b : Bool), (p, b) ∈ walk_entry ignores dirPath e →
    should_ignore p ignores = false
  | ignores, dirPath, FsEntry.file nm, p, b, h => by
      unfold walk_entry at h
      split at h
      · simp at h
      · next hig =>
          simp only [Bool.not_eq_true] at hig
          simp only [List.mem_singleton, Prod.mk.injEq] at h
          obtain ⟨rfl, rfl⟩ := h
          exact hig
  | ignores, dirPath, FsEntry.dir nm cs, p, b, h => by
      unfold walk_entry at h
      split at h
      · simp at h
      · next hig =>
          simp only [Bool.not_eq_true] at hig
          simp only [List.mem_cons, Prod.mk.injEq] at h
          rcases h with ⟨rfl, rfl⟩ | hmem
          · exact hig
          · exact walk_forest_not_ignored ignores (dirPath ++ [nm]) cs p b hmem

theorem walk_forest_not_ignored : ∀ (ignores dirPath : List String) (f : FsForest)
    (p : List String) (b : Bool), (p, b) ∈ walk_forest ignores dirPath f →
    should_ignore p ignores = false
  | ignores, dirPath, FsForest.nil, p, b, h => by
      simp [walk_forest] at h
  | ignores, dirPath, FsForest.cons e es, p, b, h => by
      unfold walk_forest at h
      rcases List.mem_append.mp h with h1 | h2
      · exact walk_entry_not_ignored ignores dirPath e p b h1
      · exact walk_forest_not_ignored ignores dirPath es p b h2
end

theorem walk_from_not_ignored (ignores rootPath : List String) (root : FsEntry)
    (p : List String) (b : Bool) (h : (p, b) ∈ walk_from ignores rootPath root) :
    should_ignore p ignores = false := by
  cases root with
  | file nm =>
      by_cases hig : should_ignore rootPath ignores = true
      · simp [walk_from, hig] at h
      · simp only [Bool.not_eq_true] at hig
        simp [walk_from, hig] at h
        obtain ⟨rfl, rfl⟩ := h
        exact hig
  | dir nm cs =>
      by_cases hig : should_ignore rootPath ignores = true
      · simp [walk_from, hig] at h
      · simp only [Bool.not_eq_true] at hig
        simp only [walk_from, hig, Bool.false_eq_true, if_false, List.mem_cons,
          Prod.mk.injEq] at h
        rcases h with ⟨rfl, rfl⟩ | hmem
        · exact hig
        · exact walk_forest_not_ignored ignores rootPath cs p b hmem

theorem find_moon_mods_not_ignored (parse : List String → Option (List String))
    (ignores rootPath : List String) (root : FsEntry) (p deps : List String)
    (h : (p, deps) ∈ find_moon_mods parse ignores rootPath root) :
    should_ignore p ignores = false := by
  unfold find_moon_mods at h
  rcases List.mem_filterMap.mp h with ⟨pb, hpb, hsome⟩
  obtain ⟨pp, bb⟩ := pb
  split at hsome
  · cases hparse : parse pp with
    | none => rw [hparse] at hsome; cases hsome
    | some ds =>
        rw [hparse] at hsome
        simp only [Option.some.injEq, Prod.mk.injEq] at hsome
        obtain ⟨rfl, rfl⟩ := hsome
        exact walk_from_not_ignored ignores rootPath root pp bb hpb
  · cases hsome

/-- C5: a path with a normal component that begins with a dot is ignored by
should_ignore for every ignore set, including the empty one obtained under
no-default-ignore, and the scanner never discovers a manifest at such a
path: the dot-prefix rule does not depend on the IgnoreSet contents. -/
theorem c5_dot_prefix_unconditional (p ignores : List String)
    (h : ∃ c ∈ p, startsWithDot c = true) :
    should_ignore p ignores = true ∧
    ∀ (parse : List String → Option (List String)) (rootPath : List String)
      (root : FsEntry) (deps : List String),
      (p, deps) ∉ find_moon_mods parse ignores rootPath root := by
  obtain ⟨c, hc, hdot⟩ := h
  refine ⟨should_ignore_of_dot p ignores c hc hdot, ?_⟩
  intro parse rootPath root deps hmem
  have h1 := find_moon_mods_not_ignored parse ignores rootPath root p deps hmem
  rw [should_ignore_of_dot p ignores c hc hdot] at h1
  cases h1

theorem c5_dot_prefix_unconditional_witness :
    should_ignore ["x", ".hidden", "moon.mod.json"] [] = true ∧
    (["x", ".hidden", "moon.mod.json"], ([] : List String)) ∉
      find_moon_mods parseW [] ["x"] treeC5 := by
  have h := c5_dot_prefix_unconditional ["x", ".hidden", "moon.mod.json"] [] (by decide)
  exact ⟨h.1, h.2 parseW ["x"] treeC5 []⟩

/-- C10: the ignore predicate sees the full canonical path of every walked
entry, the root included; when any component of the root path itself begins
with a dot or equals a member of the ignore set, the root entry is pruned
and the scan discovers zero manifests, whatever the tree below the root
holds. -/
theorem c10_ignored_root_prunes_walk (rootPath ignores : List String) (c : String)
    (hc : c ∈ rootPath) (h : startsWithDot c = true ∨ c ∈ ignores) :
    should_ignore rootPath ignores = true ∧
    ∀ (parse : List String → Option (List String)) (root : FsEntry),
      find_moon_mods parse ignores rootPath root = [] := by
  have hig : should_ignore rootPath ignores = true := by
    rcases h with hdot | hm
    · exact should_ignore_of_dot rootPath ignores c hc hdot
    · exact should_ignore_of_member rootPath ignores c hc hm
  refine ⟨hig, ?_⟩
  intro parse root
  cases root <;> simp [find_moon_mods, walk_from, hig]

theorem c10_ignored_root_prunes_walk_witness :
    should_ignore ["home", "target", "proj"] DEFAULT_IGNORES = true ∧
    find_moon_mods parseW DEFAULT_IGNORES ["home", "target", "proj"] treeC10 = [] := by
  have h := c10_ignored_root_prunes_walk ["home", "target", "proj"] DEFAULT_IGNORES
    "target" (by decide) (Or.inr (by decide))
  exact ⟨h.1, h.2 parseW treeC10⟩

mutual
theorem walk_entry_result_no_err : ∀ (readErr : List String → Option String)
    (ignores dirPath : List String) (e : FsEntry), (∀ p, readErr p = none) →
    walk_entry_result readErr ignores dirPath e = Except.ok (walk_entry ignores dirPath e)
  | readErr, ignores, dirPath, FsEntry.file nm, h => by
      unfold walk_entry_result walk_entry
      split <;> rfl
  | readErr, ignores, dirPath, FsEntry.dir nm cs, h => by
      unfold walk_entry_result walk_entry
      split
      · rfl
      · rw [h (dirPath ++ [nm]),
          walk_forest_result_no_err readErr ignores (dirPath ++ [nm]) cs h]

theorem walk_forest_result_no_err : ∀ (readErr : List String → Option String)
    (ignores dirPath : List String) (f : FsForest), (∀ p, readErr p = none) →
    walk_forest_result readErr ignores dirPath f = Except.ok (walk_forest ignores dirPath f)
  | _, _, _, FsForest.nil, _ => rfl
  | readErr, ignores, dirPath, FsForest.cons e es, h => by
      unfold walk_forest_result walk_forest
      rw [walk_entry_result_no_err readErr ignores dirPath e h,
          walk_forest_result_no_err readErr ignores dirPath es h]
end

theorem walk_from_result_no_err (readErr : List String → Option String)
    (ignores rootPath : List String) (root : FsEntry) (h : ∀ p, readErr p = none) :
    walk_from_result readErr ignores rootPath root =
      Except.ok (walk_from ignores rootPath root) := by
  by_cases hig : should_ignore rootPath ignores = true
  · cases root <;> simp [walk_from_result, walk_from, hig]
  · rw [Bool.not_eq_true] at hig
    cases root with
    | file nm => simp [walk_from_result, walk_from, hig]
    | dir nm cs =>
        simp [walk_from_result, walk_from, hig, h rootPath,
          walk_forest_result_no_err readErr ignores rootPath cs h]

theorem find_moon_mods_result_no_err (readErr : List String → Option String)
    (parse : List String → Option (List String)) (ignores rootPath : List String)
    (root : FsEntry) (h : ∀ p, readErr p = none) :
    find_moon_mods_result readErr parse ignores rootPath root =
      Except.ok (find_moon_mods parse ignores rootPath root) := by
  unfold find_moon_mods_result find_moon_mods
  rw [walk_from_result_no_err readErr ignores rootPath root h]

theorem discover_manifests_walk_error_fatal (rootPath : List String) (nm : String)
    (cs : FsForest) (readErr : List String → Option String)
    (parse : List String → Option (List String)) (ui : List String) (nd : Bool)
    (e : String) (hig : should_ignore rootPath (build_ignores ui nd) = false)
    (he : readErr rootPath = some e) :
    discover_manifests (some (rootPath, FsEntry.dir nm cs)) readErr parse ui nd =
      Except.error e := by
  unfold discover_manifests find_moon_mods_result walk_from_result
  simp [hig, he]

/-- C7 counterexample: a root that exists but is a regular file is not
rejected by discovery: canonicalization succeeds on an existing file, the
walk yields the root file itself (no directory is read, so no walk error can
arise), and here it is even discovered as a manifest — contradicting the
claim that discovery fails fatally whenever the root is not a directory. -/
theorem c7_file_root_counterexample :
    discover_manifests (some (["r", "moon.mod.json"], FsEntry.file "moon.mod.json"))
        (fun _ => none) (fun _ => some []) [] false =
      Except.ok [(["r", "moon.mod.json"], [])] := by
  rfl

/-- C7 amended: discovery fails fatally, returning an error so that no
manifests are reported and main exits 1, whenever canonicalization of the
root fails — in particular whenever the root path does not exist. The
not-a-directory half of the original claim is refuted by the counterexample;
per-entry walk errors after a successful canonicalization are a further
fatal path of discovery, modelled by readErr, and no equivalence beyond the
canonicalization case is asserted. -/
theorem c7_bad_root_error (readErr : List String → Option String)
    (parse : List String → Option (List String)) (ui : List String) (nd : Bool) :
    discover_manifests none readErr parse ui nd = Except.error "Invalid root path" ∧
    (∀ e, main_exit (Except.error e) = 1) :=
  ⟨rfl, fun _ => rfl⟩

theorem add_one_failed (env : MoonEnv) (k : Nat) (d : String) (r : RepoResult) :
    (add_one env k d r).failed_packages =
      r.failed_packages ++ (match env.addResult k d with
        | Except.error e => [(d, e)]
        | Except.ok _ => []) := by
  unfold add_one
  cases env.addResult k d with
  | ok v =>
      dsimp only
      split <;> simp
  | error e => rfl

theorem failures_of_cons (env : MoonEnv) (k : Nat) (d : String) (ds : List String) :
    failures_of env k (d :: ds) =
      (match env.addResult k d with
        | Except.error e => [(d, e)]
        | Except.ok _ => []) ++ failures_of env k ds := by
  unfold failures_of
  rw [List.filterMap_cons]
  cases env.addResult k d <;> simp

theorem add_one_success (env : MoonEnv) (k : Nat) (d : String) (r : RepoResult) :
    (add_one env k d r).success = (r.success && except_ok (env.addResult k d)) := by
  unfold add_one except_ok
  cases env.addResult k d with
  | ok v =>
      dsimp only
      split <;> simp
  | error e => simp

theorem add_one_mem_updated (env : MoonEnv) (k : Nat) (d : String) (r : RepoResult)
    (x : String) :
    x ∈ (add_one env k d r).updated_packages ↔
      x ∈ r.updated_packages ∨ (x = d ∧ except_ok (env.addResult k d) = true) := by
  unfold add_one except_ok
  cases env.addResult k d with
  | error e => simp
  | ok v =>
      dsimp only
      split
      · next hc =>
          have hd : d ∈ r.updated_packages := List.elem_iff.mp hc
          simp only [eq_self_iff_true, and_true]
          constructor
          · exact Or.inl
          · rintro (h | rfl)
            · exact h
            · exact hd
      · simp [or_assoc]

theorem add_one_nodup (env : MoonEnv) (k : Nat) (d : String) (r : RepoResult)
    (h : r.updated_packages.Nodup) : (add_one env k d r).updated_packages.Nodup := by
  unfold add_one
  cases env.addResult k d with
  | error e => exact h
  | ok v =>
      dsimp only
      split
      · exact h
      · next hc =>
          have hd : d ∉ r.updated_packages := fun hm => hc (List.elem_iff.mpr hm)
          simp [List.nodup_append, h, hd]

theorem add_round_trace (env : MoonEnv) (k : Nat) (deps : List String) :
    ∀ rt : RepoResult × List MoonCall,
      (add_round env k deps rt).2 = rt.2 ++ deps.map (MoonCall.add k) := by
  induction deps with
  | nil => intro rt; simp [add_round]
  | cons d ds ih =>
      intro rt
      simp only [add_round]
      rw [ih]
      simp

theorem add_round_failed (env : MoonEnv) (k : Nat) (deps : List String) :
    ∀ rt : RepoResult × List MoonCall,
      (add_round env k deps rt).1.failed_packages =
        rt.1.failed_packages ++ failures_of env k deps := by
  induction deps with
  | nil => intro rt; simp [add_round, failures_of]
  | cons d ds ih =>
      intro rt
      simp only [add_round]
      rw [ih, failures_of_cons]
      simp [add_one_failed]

theorem add_round_success (env : MoonEnv) (k : Nat) (deps : List String) :
    ∀ rt : RepoResult × List MoonCall,
      (add_round env k deps rt).1.success =
        (rt.1.success && deps.all fun d => except_ok (env.addResult k d)) := by
  induction deps with
  | nil => intro rt; simp [add_round]
  | cons d ds ih =>
      intro rt
      simp only [add_round]
      rw [ih]
      simp [add_one_success, Bool.and_assoc]

theorem add_round_mem_updated (env : MoonEnv) (k : Nat) (deps : List String) :
    ∀ (rt : RepoResult × List MoonCall) (x : String),
      x ∈ (add_round env k deps rt).1.updated_packages ↔
        x ∈ rt.1.updated_packages ∨ (x ∈ deps ∧ except_ok (env.addResult k x) = true) := by
  induction deps with
  | nil => intro rt x; simp [add_round]
  | cons d ds ih =>
      intro rt x
      simp only [add_round]
      rw [ih]
      rw [add_one_mem_updated]
      constructor
      · rintro ((h | ⟨rfl, hok⟩) | ⟨hds, hok⟩)
        · exact Or.inl h
        · exact Or.inr ⟨List.mem_cons_self _ _, hok⟩
        · exact Or.inr ⟨List.mem_cons_of_mem _ hds, hok⟩
      · rintro (h | ⟨hmem, hok⟩)
        · exact Or.inl (Or.inl h)
        · rcases List.mem_cons.mp hmem with rfl | hds
          · exact Or.inl (Or.inr ⟨rfl, hok⟩)
          · exact Or.inr ⟨hds, hok⟩

theorem add_round_nodup (env : MoonEnv) (k : Nat) (deps : List String) :
    ∀ rt : RepoResult × List MoonCall,
      rt.1.updated_packages.Nodup → (add_round env k deps rt).1.updated_packages.Nodup := by
  induction deps with
  | nil => intro rt h; simpa [add_round] using h
  | cons d ds ih =>
      intro rt h
      simp only [add_round]
      exact ih (add_one env k d rt.1, rt.2 ++ [MoonCall.add k d]) (add_one_nodup env k d rt.1 h)

theorem add_rounds_from_trace (env : MoonEnv) (deps : List String) :
    ∀ (n i : Nat) (rt : RepoResult × List MoonCall),
      (add_rounds_from env deps i n rt).2 =
        rt.2 ++ (List.range' i n).flatMap fun k => deps.map (MoonCall.add k) := by
  intro n
  induction n with
  | zero => intro i rt; simp [add_rounds_from]
  | succ n ih =>
      intro i rt
      simp only [add_rounds_from]
      rw [ih]
      have hr : List.range' i (n + 1) = i :: List.range' (i + 1) n := rfl
      rw [hr, add_round_trace]
      simp

theorem add_rounds_from_failed (env : MoonEnv) (deps : List String) :
    ∀ (n i : Nat) (rt : RepoResult × List MoonCall),
      (add_rounds_from env deps i n rt).1.failed_packages =
        rt.1.failed_packages ++ (List.range' i n).flatMap fun k => failures_of env k deps := by
  intro n
  induction n with
  | zero => intro i rt; simp [add_rounds_from]
  | succ n ih =>
      intro i rt
      simp only [add_rounds_from]
      rw [ih]
      have hr : List.range' i (n + 1) = i :: List.range' (i + 1) n := rfl
      rw [hr, add_round_failed]
      simp

theorem add_rounds_from_success (env : MoonEnv) (deps : List String) :
    ∀ (n i : Nat) (rt : RepoResult × List MoonCall),
      (add_rounds_from env deps i n rt).1.success =
        (rt.1.success && (List.range' i n).all fun k =>
          deps.all fun d => except_ok (env.addResult k d)) := by
  intro n
  induction n with
  | zero => intro i rt; simp [add_rounds_from]
  | succ n ih =>
      intro i rt
      simp only [add_rounds_from]
      rw [ih]
      have hr : List.range' i (n + 1) = i :: List.range' (i + 1) n := rfl
      rw [hr, add_round_success]
      simp [Bool.and_assoc]

theorem add_rounds_from_mem_updated (env : MoonEnv) (deps : List String) :
    ∀ (n i : Nat) (rt : RepoResult × List MoonCall) (x : String),
      x ∈ (add_rounds_from env deps i n rt).1.updated_packages ↔
        x ∈ rt.1.updated_packages ∨
          (x ∈ deps ∧ ∃ k, k ∈ List.range' i n ∧ except_ok (env.addResult k x) = true) := by
  intro n
  induction n with
  | zero => intro i rt x; simp [add_rounds_from]
  | succ n ih =>
      intro i rt x
      simp only [add_rounds_from]
      rw [ih, add_round_mem_updated]
      have hr : List.range' i (n + 1) = i :: List.range' (i + 1) n := rfl
      rw [hr]
      constructor
      · rintro ((h | ⟨hd, hok⟩) | ⟨hd, k, hk, hok⟩)
        · exact Or.inl h
        · exact Or.inr ⟨hd, i, List.mem_cons_self _ _, hok⟩
        · exact Or.inr ⟨hd, k, List.mem_cons_of_mem _ hk, hok⟩
      · rintro (h | ⟨hd, k, hk, hok⟩)
        · exact Or.inl (Or.inl h)
        · rcases List.mem_cons.mp hk with rfl | hk2
          · exact Or.inl (Or.inr ⟨hd, hok⟩)
          · exact Or.inr ⟨hd, k, hk2, hok⟩

theorem add_rounds_from_nodup (env : MoonEnv) (deps : List String) :
    ∀ (n i : Nat) (rt : RepoResult × List MoonCall),
      rt.1.updated_packages.Nodup →
        (add_rounds_from env deps i n rt).1.updated_packages.Nodup := by
  intro n
  induction n with
  | zero => intro i rt h; simpa [add_rounds_from] using h
  | succ n ih =>
      intro i rt h
      simp only [add_rounds_from]
      exact ih (i + 1) (add_round env i deps rt) (add_round_nodup env i deps rt h)

/-- C1: with skip_update and dry_run both false, a failing moon update makes
the worker record the error message, clear success, and return at once: the
trace holds the single update invocation, so no moon add runs and the
justfile step is not executed, and updated_packages and failed_packages stay
empty. -/
theorem c1_update_failure_returns_early (env : MoonEnv) (repo : RepoInfo)
    (reps : Nat) (filt : List String) (wj : Bool) (e : String)
    (h : env.updateResult = Except.error e) :
    process_repo env repo false reps filt false wj =
      ({ repo_root := repo.root, success := false, updated_packages := [],
         failed_packages := [], errors := ["moon update failed: " ++ e] },
       [MoonCall.update]) := by
  unfold process_repo
  rw [h]
  rfl

theorem c1_update_failure_returns_early_witness :
    process_repo envC1 repoC1 false 2 [] false true =
      ({ repo_root := "r", success := false, updated_packages := [],
         failed_packages := [], errors := ["moon update failed: " ++ "boom"] },
       [MoonCall.update]) :=
  c1_update_failure_returns_early envC1 repoC1 2 [] true "boom" rfl

/-- C2: full characterization of the add loop when it runs (dry_run false).
The trace lists every (round, dep) invocation, so a failing add never aborts
the loop; failed_packages collects exactly the (dep, message) pairs of the
failing invocations in order; success stays set iff it was set and no add
failed; a dependency ends up in updated_packages iff it was already there or
some round succeeded for it, and updated_packages stays duplicate-free, so a
successful dep is appended only when not already present. -/
theorem c2_add_loop_behavior (env : MoonEnv) (deps : List String) (reps : Nat)
    (r0 : RepoResult) (t0 : List MoonCall) (h0 : r0.updated_packages.Nodup) :
    (add_loop env deps reps (r0, t0)).2 =
        t0 ++ (List.range reps).flatMap (fun k => deps.map (MoonCall.add k)) ∧
    (add_loop env deps reps (r0, t0)).1.failed_packages =
        r0.failed_packages ++ (List.range reps).flatMap (fun k => failures_of env k deps) ∧
    (add_loop env deps reps (r0, t0)).1.success =
        (r0.success && (List.range reps).all fun k =>
          deps.all fun d => except_ok (env.addResult k d)) ∧
    (∀ x : String, x ∈ (add_loop env deps reps (r0, t0)).1.updated_packages ↔
        x ∈ r0.updated_packages ∨
          (x ∈ deps ∧ ∃ k, k ∈ List.range reps ∧ except_ok (env.addResult k x) = true)) ∧
    (add_loop env deps reps (r0, t0)).1.updated_packages.Nodup := by
  unfold add_loop
  rw [List.range_eq_range']
  refine ⟨add_rounds_from_trace env deps reps 0 (r0, t0),
    add_rounds_from_failed env deps reps 0 (r0, t0),
    add_rounds_from_success env deps reps 0 (r0, t0),
    fun x => add_rounds_from_mem_updated env deps reps 0 (r0, t0) x,
    add_rounds_from_nodup env deps reps 0 (r0, t0) h0⟩

theorem c2_add_loop_behavior_witness :
    (add_loop envC2 ["a", "b"] 1 (initResult "r", [])).2 =
        [MoonCall.add 0 "a", MoonCall.add 0 "b"] ∧
    (add_loop envC2 ["a", "b"] 1 (initResult "r", [])).1.failed_packages = [("b", "E")] ∧
    (add_loop envC2 ["a", "b"] 1 (initResult "r", [])).1.success = false ∧
    (add_loop envC2 ["a", "b"] 1 (initResult "r", [])).1.updated_packages.Nodup := by
  obtain ⟨h1, h2, h3, _, h5⟩ :=
    c2_add_loop_behavior envC2 ["a", "b"] 1 (initResult "r") [] (by decide)
  exact ⟨h1.trans (by decide), h2.trans (by decide), h3.trans (by decide), h5⟩

theorem add_calls_append (t1 t2 : List MoonCall) :
    add_calls (t1 ++ t2) = add_calls t1 + add_calls t2 := by
  unfold add_calls
  exact List.countP_append _ t1 t2

theorem add_calls_map_add (k : Nat) (deps : List String) :
    add_calls (deps.map (MoonCall.add k)) = deps.length := by
  unfold add_calls
  rw [List.countP_map]
  simp [Function.comp]

theorem add_calls_rounds (deps : List String) :
    ∀ (n i : Nat),
      add_calls ((List.range' i n).flatMap fun k => deps.map (MoonCall.add k)) =
        n * deps.length := by
  intro n
  induction n with
  | zero => intro i; simp [add_calls]
  | succ n ih =>
      intro i
      have hr : List.range' i (n + 1) = i :: List.range' (i + 1) n := rfl
      rw [hr, List.flatMap_cons, add_calls_append, add_calls_map_add, ih]
      ring

theorem add_calls_just_step (env : MoonEnv) (wj : Bool) (rt : RepoResult × List MoonCall) :
    add_calls (just_step env wj rt).2 = add_calls rt.2 := by
  unfold just_step
  split
  · cases env.justResult <;> simp [add_calls_append, add_calls]
  · rfl

theorem add_calls_add_loop (env : MoonEnv) (deps : List String) (reps : Nat)
    (rt : RepoResult × List MoonCall) :
    add_calls (add_loop env deps reps rt).2 = add_calls rt.2 + reps * deps.length := by
  unfold add_loop
  rw [add_rounds_from_trace, add_calls_append, add_calls_rounds]

theorem add_calls_after_update (env : MoonEnv) (repo : RepoInfo) (reps : Nat)
    (filt : List String) (wj : Bool) (rt0 : RepoResult × List MoonCall) :
    add_calls (after_update env repo reps filt false wj rt0).2 =
      add_calls rt0.2 + reps * (filtered_deps repo.mods filt).length := by
  unfold after_update
  rw [add_calls_just_step]
  simp only [Bool.false_eq_true, if_false]
  exact add_calls_add_loop env (filtered_deps repo.mods filt) reps rt0

/-- C6 counterexample: the repeat option is not validated, so repeat 0 is
accepted and the worker performs no moon add invocation at all even though
the deduplicated dependency list is non-empty, against the claim that the
program enforces at least one pass. -/
theorem c6_repeat_zero_counterexample :
    filtered_deps [["a/b"]] [] = ["a/b"] ∧
    (process_repo envOk { root := "r", mods := [["a/b"]] } true 0 [] false false).2 = [] ∧
    add_calls (process_repo envOk { root := "r", mods := [["a/b"]] } true 0 [] false false).2
      = 0 := by
  refine ⟨rfl, rfl, rfl⟩

/-- C6 amended: whenever the add loop is reached (dry_run false and the
update step skipped or successful), it performs exactly reps full passes over
the deduplicated dependency list, reps * length invocations in total, and the
repeat option defaults to 1; however the program does not enforce repeat at
least 1: the value 0 is accepted and yields zero passes. -/
theorem c6_repeat_exact_passes (env : MoonEnv) (repo : RepoInfo) (su : Bool)
    (reps : Nat) (filt : List String) (wj : Bool)
    (h : su = true ∨ ∃ s, env.updateResult = Except.ok s) :
    add_calls (process_repo env repo su reps filt false wj).2 =
      reps * (filtered_deps repo.mods filt).length ∧
    repeat_default = 1 := by
  refine ⟨?_, rfl⟩
  unfold process_repo
  rcases h with rfl | ⟨s, hs⟩
  · simpa [add_calls] using
      add_calls_after_update env repo reps filt wj (initResult repo.root, [])
  · rw [hs]
    cases su
    · simpa [add_calls] using add_calls_after_update env repo reps filt wj
        (initResult repo.root, [MoonCall.update])
    · simpa [add_calls] using
        add_calls_after_update env repo reps filt wj (initResult repo.root, [])

theorem c6_repeat_exact_passes_witness :
    add_calls (process_repo envOk { root := "r", mods := [["a/b"]] } true 2 [] false false).2 =
      2 * (filtered_deps [["a/b"]] []).length ∧
    repeat_default = 1 :=
  c6_repeat_exact_passes envOk { root := "r", mods := [["a/b"]] } true 2 [] false (Or.inl rfl)

theorem just_step_false (env : MoonEnv) (rt : RepoResult × List MoonCall) :
    just_step env false rt = rt := rfl

theorem just_step_success_eq (env : MoonEnv) (wj : Bool) (rt : RepoResult × List MoonCall) :
    (just_step env wj rt).1.success = rt.1.success := by
  unfold just_step
  split
  · cases env.justResult <;> rfl
  · rfl

theorem just_step_errors_on_error (env : MoonEnv) (rt : RepoResult × List MoonCall)
    (e : String) (h : env.justResult = Except.error e) :
    (just_step env true rt).1.errors =
      rt.1.errors ++ ["justfile handling failed: " ++ e] := by
  unfold just_step
  rw [h]
  rfl

theorem after_update_justfile_failure (env : MoonEnv) (repo : RepoInfo) (reps : Nat)
    (filt : List String) (dr : Bool) (rt0 : RepoResult × List MoonCall) (e : String)
    (hj : env.justResult = Except.error e) :
    (after_update env repo reps filt dr true rt0).1.success =
      (after_update env repo reps filt dr false rt0).1.success ∧
    (after_update env repo reps filt dr true rt0).1.errors =
      (after_update env repo reps filt dr false rt0).1.errors ++
        ["justfile handling failed: " ++ e] := by
  unfold after_update
  rw [just_step_false, just_step_success_eq, just_step_errors_on_error env _ e hj]
  exact ⟨rfl, rfl⟩

/-- C8: a failing justfile step is appended to the repo-level errors but
never changes the success flag: whenever the update and add steps left
success true (the run with write_justfile disabled reports true), the run
that does write the justfile still reports success true, with exactly the
justfile error appended. -/
theorem c8_justfile_failure_keeps_success (env : MoonEnv) (repo : RepoInfo)
    (su : Bool) (reps : Nat) (filt : List String) (dr : Bool) (e : String)
    (hj : env.justResult = Except.error e)
    (hs : (process_repo env repo su reps filt dr false).1.success = true) :
    (process_repo env repo su reps filt dr true).1.success = true ∧
    (process_repo env repo su reps filt dr true).1.errors =
      (process_repo env repo su reps filt dr false).1.errors ++
        ["justfile handling failed: " ++ e] := by
  unfold process_repo at hs ⊢
  by_cases hc : (!su && !dr) = true
  · rw [hc] at hs ⊢
    simp only [if_true] at hs ⊢
    cases hu : env.updateResult with
    | error e2 =>
        rw [hu] at hs
        simp [initResult] at hs
    | ok v =>
        rw [hu] at hs
        dsimp only at hs ⊢
        obtain ⟨h1, h2⟩ := after_update_justfile_failure env repo reps filt dr
          (initResult repo.root, [MoonCall.update]) e hj
        exact ⟨h1.trans hs, h2⟩
  · rw [Bool.not_eq_true] at hc
    rw [hc] at hs ⊢
    simp only [Bool.false_eq_true, if_false] at hs ⊢
    obtain ⟨h1, h2⟩ := after_update_justfile_failure env repo reps filt dr
      (initResult repo.root, []) e hj
    exact ⟨h1.trans hs, h2⟩

theorem c8_justfile_failure_keeps_success_witness :
    (process_repo envC8 repoC1 true 1 [] false true).1.success = true ∧
    (process_repo envC8 repoC1 true 1 [] false true).1.errors =
      (process_repo envC8 repoC1 true 1 [] false false).1.errors ++
        ["justfile handling failed: " ++ "disk full"] :=
  c8_justfile_failure_keeps_success envC8 repoC1 true 1 [] false "disk full" rfl (by decide)

theorem all_success_foldl (l : List RepoResult) :
    ∀ acc : Bool, l.foldl (fun acc r => acc && r.success) acc =
      (acc && l.all fun r => r.success) := by
  induction l with
  | nil => intro acc; simp
  | cons r rs ih =>
      intro acc
      simp only [List.foldl_cons, List.all_cons]
      rw [ih]
      simp [Bool.and_assoc]

theorem all_success_eq_all (l : List RepoResult) :
    all_success l = (l.all fun r => r.success) := by
  unfold all_success
  rw [all_success_foldl]
  simp

theorem apply_exit_eq_zero (l : List RepoResult) :
    apply_exit l = 0 ↔ all_success l = true := by
  unfold apply_exit
  split
  · next h => simp [h]
  · next h => simp [h]

theorem orch_inv_init (cfg : ApplyConfig) : orch_inv cfg (init_state cfg) := by
  refine ⟨?_, ?_, ?_, ?_⟩
  · intro r hr
    simp [init_state] at hr
  · intro h
    simp [init_state] at h
  · left
    simp [init_state]
  · intro repo hrepo
    simpa [init_state] using hrepo

theorem orch_inv_step (cfg : ApplyConfig) (s s2 : OrchState)
    (hs : orch_inv cfg s) (hstep : OrchStep cfg s s2) : orch_inv cfg s2 := by
  obtain ⟨h1, h2, h3, h4⟩ := hs
  cases hstep with
  | skip pre post repo results hff =>
      refine ⟨h1, h2, ?_, ?_⟩
      · right
        exact h2 rfl
      · intro x hx
        apply h4
        simp only [List.mem_append] at hx ⊢
        rcases hx with hx | hx
        · exact Or.inl hx
        · exact Or.inr (List.mem_cons_of_mem _ hx)
  | work pre post repo results stop =>
      have hrepo : repo ∈ cfg.repos := by
        apply h4
        simp only [List.mem_append, List.mem_cons]
        exact Or.inr (Or.inl trivial)
      refine ⟨?_, ?_, ?_, ?_⟩
      · intro r hr
        rcases List.mem_append.mp hr with hr | hr
        · exact h1 r hr
        · simp only [List.mem_singleton] at hr
          exact ⟨repo, hrepo, hr⟩
      · intro hstop
        rcases Bool.or_eq_true_iff.mp hstop with hstop | hstop
        · obtain ⟨r, hr, hf⟩ := h2 hstop
          exact ⟨r, List.mem_append.mpr (Or.inl hr), hf⟩
        · refine ⟨(run_worker cfg repo).1,
            List.mem_append.mpr (Or.inr (List.mem_singleton_self _)), ?_⟩
          have := (Bool.and_eq_true_iff.mp hstop).2
          rwa [Bool.not_eq_true'] at this
      · rcases h3 with h3 | h3
        · left
          simp only [List.length_append, List.length_cons, List.length_nil] at h3 ⊢
          omega
        · right
          obtain ⟨r, hr, hf⟩ := h3
          exact ⟨r, List.mem_append.mpr (Or.inl hr), hf⟩
      · intro x hx
        apply h4
        simp only [List.mem_append] at hx ⊢
        rcases hx with hx | hx
        · exact Or.inl hx
        · exact Or.inr (List.mem_cons_of_mem _ hx)

theorem orch_inv_reachable (cfg : ApplyConfig) (s : OrchState)
    (h : Relation.ReflTransGen (OrchStep cfg) (init_state cfg) s) :
    orch_inv cfg s := by
  induction h with
  | refl => exact orch_inv_init cfg
  | tail hsteps hstep ih => exact orch_inv_step cfg _ _ ih hstep

/-- C3: under any schedule of the fail-fast orchestration, a started worker
is never preempted: the stop flag is consulted only before a repository is
processed, so every collected RepoResult equals the output of the complete
per-repository plan run on one of the discovered repositories, never a
partially executed one. -/
theorem c3_workers_never_preempted (cfg : ApplyConfig) (s : OrchState)
    (h : Relation.ReflTransGen (OrchStep cfg) (init_state cfg) s) :
    ∀ r ∈ s.results, ∃ repo, repo ∈ cfg.repos ∧ r = (run_worker cfg repo).1 :=
  (orch_inv_reachable cfg s h).1

theorem c3_workers_never_preempted_witness :
    ∃ repo, repo ∈ cfgW.repos ∧ (run_worker cfgW repoW).1 = (run_worker cfgW repo).1 :=
  c3_workers_never_preempted cfgW finalW
    (Relation.ReflTransGen.single (OrchStep.work [] [] repoW [] false))
    (run_worker cfgW repoW).1 (List.mem_singleton_self _)

/-- C4: at any completed run of the orchestration, the exit code apply
reports is 0 exactly when every collected result succeeded and, when
fail-fast is enabled, a result was collected for every discovered
repository; a worker pushes its failing result before setting the stop flag,
so a missing result implies a collected failure and an early stop still
exits 1. -/
theorem c4_exit_code (cfg : ApplyConfig) (s : OrchState)
    (h : Relation.ReflTransGen (OrchStep cfg) (init_state cfg) s)
    (hdone : s.pending = []) :
    apply_exit s.results = 0 ↔
      ((s.results.all fun r => r.success) = true ∧
        (cfg.failFast = true → s.results.length = cfg.repos.length)) := by
  obtain ⟨_, _, h3, _⟩ := orch_inv_reachable cfg s h
  rw [apply_exit_eq_zero, all_success_eq_all]
  constructor
  · intro hall
    refine ⟨hall, fun _ => ?_⟩
    rcases h3 with h3 | h3
    · rw [hdone] at h3
      simpa using h3
    · obtain ⟨r, hr, hf⟩ := h3
      have := List.all_eq_true.mp hall r hr
      rw [hf] at this
      cases this
  · intro hall
    exact hall.1

theorem c4_exit_code_witness :
    apply_exit finalW.results = 0 ↔
      ((finalW.results.all fun r => r.success) = true ∧
        (cfgW.failFast = true → finalW.results.length = cfgW.repos.length)) :=
  c4_exit_code cfgW finalW
    (Relation.ReflTransGen.single (OrchStep.work [] [] repoW [] false)) rfl

theorem lookup_cons_self (fs : List (List String × String)) (p : List String) (v : String) :
    (((p, v) :: fs).lookup p) = some v := by
  simp [List.lookup]

/-- C9: in Create mode with a succeeding write and no dry run, handle_justfile
returns false and leaves the filesystem unchanged when repo_root/justfile
already exists, and otherwise writes the built-in template there and returns
true; consequently the operation is idempotent: a second run on the produced
filesystem creates nothing and changes nothing. -/
theorem c9_create_mode_idempotent (fs : List (List String × String))
    (repoRoot : List String) :
    ((fs.lookup (repoRoot ++ ["justfile"])).isSome = true →
      handle_justfile fs repoRoot JustfileMode.create false true = Except.ok (false, fs)) ∧
    ((fs.lookup (repoRoot ++ ["justfile"])).isSome = false →
      handle_justfile fs repoRoot JustfileMode.create false true =
        Except.ok (true, (repoRoot ++ ["justfile"], JUSTFILE_TEMPLATE) :: fs) ∧
      (((repoRoot ++ ["justfile"], JUSTFILE_TEMPLATE) :: fs).lookup
          (repoRoot ++ ["justfile"])) = some JUSTFILE_TEMPLATE) ∧
    (∀ (b : Bool) (fs1 : List (List String × String)),
      handle_justfile fs repoRoot JustfileMode.create false true = Except.ok (b, fs1) →
      handle_justfile fs1 repoRoot JustfileMode.create false true =
        Except.ok (false, fs1)) := by
  refine ⟨?_, ?_, ?_⟩
  · intro hex
    simp [handle_justfile, hex]
  · intro hex
    exact ⟨by simp [handle_justfile, hex], lookup_cons_self fs _ _⟩
  · intro b fs1 hrun
    cases hex : (fs.lookup (repoRoot ++ ["justfile"])).isSome with
    | true =>
        rw [show handle_justfile fs repoRoot JustfileMode.create false true =
            Except.ok (false, fs) by simp [handle_justfile, hex]] at hrun
        simp only [Except.ok.injEq, Prod.mk.injEq] at hrun
        obtain ⟨rfl, rfl⟩ := hrun
        simp [handle_justfile, hex]
    | false =>
        rw [show handle_justfile fs repoRoot JustfileMode.create false true =
            Except.ok (true, (repoRoot ++ ["justfile"], JUSTFILE_TEMPLATE) :: fs) by
          simp [handle_justfile, hex]] at hrun
        simp only [Except.ok.injEq, Prod.mk.injEq] at hrun
        obtain ⟨rfl, rfl⟩ := hrun
        have hl : ((((repoRoot ++ ["justfile"]), JUSTFILE_TEMPLATE) :: fs).lookup
            (repoRoot ++ ["justfile"])).isSome = true := by
          rw [lookup_cons_self]
          rfl
        simp [handle_justfile, hl]

theorem c9_create_mode_idempotent_witness :
    (handle_justfile [] [] JustfileMode.create false true =
        Except.ok (true, [(["justfile"], JUSTFILE_TEMPLATE)]) ∧
      (([(["justfile"], JUSTFILE_TEMPLATE)] :
          List (List String × String)).lookup ["justfile"]) = some JUSTFILE_TEMPLATE) ∧
    handle_justfile [(["justfile"], JUSTFILE_TEMPLATE)] [] JustfileMode.create false true =
      Except.ok (false, [(["justfile"], JUSTFILE_TEMPLATE)]) := by
  have h := c9_create_mode_idempotent [] []
  have h2 := h.2.1 rfl
  exact ⟨h2, h.2.2 true [(["justfile"], JUSTFILE_TEMPLATE)] h2.1⟩
